import Mathlib

/-!
# Verification of the file-host server's path-resolution and access-control core

Shallow embedding of the path-resolution, access-control, classification and
listing logic of the `file-host` Express server (`server.js` and its sectioned
variant).  JavaScript strings are modelled as Lean `String`s (operating on
their `List Char` data), Node's posix path algebra is modelled segment-wise,
`decodeURIComponent` / `encodeURIComponent` are modelled including strict
UTF-8 validation of percent-escapes, and the request handlers are modelled as
pure functions from a filesystem oracle to a response, additionally returning
the trace of filesystem operations they perform.
-/

/-! ## String helpers (models of the JavaScript string methods used) -/

/-- Model of JavaScript `s.startsWith(pre)`. -/
def strStartsWith (s pre : String) : Bool :=
  pre.data.isPrefixOf s.data

/-- Model of JavaScript `s.endsWith(suf)`. -/
def strEndsWith (s suf : String) : Bool :=
  suf.data.isSuffixOf s.data

/-- Model of JavaScript `s.slice(n)` (our uses are ASCII, so code units = chars). -/
def strDrop (s : String) (n : Nat) : String :=
  String.mk (s.data.drop n)

/-- Model of JavaScript `s.replace(/\/+$/, '')`: remove all trailing slashes. -/
def stripTrailingSlashes (s : String) : String :=
  String.mk ((s.data.reverse.dropWhile (· = '/')).reverse)

/-! ## Posix path algebra (model of Node's `path.resolve` / `path.join`) -/

/-- Split a character list at every `'/'` (keeping empty pieces). -/
def splitOnSlash : List Char → List (List Char)
  | [] => [[]]
  | c :: rest =>
    if c = '/' then [] :: splitOnSlash rest
    else
      match splitOnSlash rest with
      | [] => [[c]]
      | s :: ss => (c :: s) :: ss

/-- The non-empty `'/'`-separated segments of a path string. -/
def segsOf (s : String) : List String :=
  (splitOnSlash s.data).filterMap (fun l => if l = [] then none else some (String.mk l))

/-- One step of path normalization: `"."` is dropped, `".."` pops the last
segment (with excess `".."` beyond an absolute root dropped, as Node does for
absolute paths), any other segment is appended. -/
def normStep (acc : List String) (seg : String) : List String :=
  if seg = "." then acc
  else if seg = ".." then acc.dropLast
  else acc ++ [seg]

/-- Normalize a segment list (resolve `.` and `..` left to right). -/
def normSegs (l : List String) : List String :=
  l.foldl normStep []

/-- Join segments with `'/'`. -/
def joinSegs : List String → String
  | [] => ""
  | [s] => s
  | s :: rest => s ++ "/" ++ joinSegs rest

/-- Model of Node's posix `path.resolve(root, '.' + decoded)` for an absolute
`root`: normalize the concatenated segments and re-root at `'/'`. -/
def pathResolve (root decoded : String) : String :=
  "/" ++ joinSegs (normSegs (segsOf root ++ segsOf ("." ++ decoded)))

/-- Model of Node's posix `path.join(a, b)` for a segment name `b` containing
no separators or dot-segments. -/
def pathJoin (a b : String) : String :=
  if strEndsWith a "/" then a ++ b else a ++ "/" ++ b

/-! ## Percent-encoding (models of `decodeURIComponent` / `encodeURIComponent`) -/

/-- Value of a hexadecimal digit character. -/
def hexVal (c : Char) : Option Nat :=
  if '0' ≤ c ∧ c ≤ '9' then some (c.toNat - 48)
  else if 'A' ≤ c ∧ c ≤ 'F' then some (c.toNat - 55)
  else if 'a' ≤ c ∧ c ≤ 'f' then some (c.toNat - 87)
  else none

/-- First phase of `decodeURIComponent`: turn the character stream into a
token stream, where a literal character stays a character (`Sum.inl`) and a
`%HH` escape becomes the byte it denotes (`Sum.inr`).  A `'%'` not followed by
two hex digits is a malformed escape and fails (JS throws `URIError`). -/
def tokenizeEscapes : List Char → Option (List (Char ⊕ Nat))
  | [] => some []
  | c :: rest =>
    if c = '%' then
      match rest with
      | h1 :: h2 :: rest2 =>
        match hexVal h1, hexVal h2 with
        | some a, some b => (Sum.inr (16 * a + b) :: ·) <$> tokenizeEscapes rest2
        | _, _ => none
      | _ => none
    else (Sum.inl c :: ·) <$> tokenizeEscapes rest

/-- Second phase of `decodeURIComponent`, processed one token at a time with
an explicit state: `none` when at a character boundary, `some (cp, need, lo,
hi)` when `need` continuation bytes of a partial code point `cp` are still
expected and the next byte must lie in `[lo, hi]` (the first continuation
byte's window excludes overlong encodings and surrogates, exactly as the
ECMAScript `Decode` algorithm does; later windows are the standard
`[0x80, 0xBF]`).  Literal characters pass through and are only legal at a
boundary; escaped bytes must form valid UTF-8 (1-4 byte sequences). -/
def asmAux : List (Char ⊕ Nat) → Option (Nat × Nat × Nat × Nat) → Option (List Char)
  | [], none => some []
  | [], some _ => none
  | Sum.inl c :: rest, none => (c :: ·) <$> asmAux rest none
  | Sum.inl _ :: _, some _ => none
  | Sum.inr b :: rest, none =>
    if b < 0x80 then (Char.ofNat b :: ·) <$> asmAux rest none
    else if 0xC2 ≤ b ∧ b ≤ 0xDF then asmAux rest (some (b - 0xC0, 1, 0x80, 0xBF))
    else if 0xE0 ≤ b ∧ b ≤ 0xEF then
      asmAux rest
        (some (b - 0xE0, 2, if b = 0xE0 then 0xA0 else 0x80, if b = 0xED then 0x9F else 0xBF))
    else if 0xF0 ≤ b ∧ b ≤ 0xF4 then
      asmAux rest
        (some (b - 0xF0, 3, if b = 0xF0 then 0x90 else 0x80, if b = 0xF4 then 0x8F else 0xBF))
    else none
  | Sum.inr b :: rest, some (cp, need, lo, hi) =>
    if lo ≤ b ∧ b ≤ hi then
      if need = 1 then (Char.ofNat (cp * 64 + (b - 0x80)) :: ·) <$> asmAux rest none
      else asmAux rest (some (cp * 64 + (b - 0x80), need - 1, 0x80, 0xBF))
    else none

/-- Second phase of `decodeURIComponent`: literal characters pass through,
escaped byte runs must form valid UTF-8. -/
def utf8Assemble (ts : List (Char ⊕ Nat)) : Option (List Char) :=
  asmAux ts none

/-- Model of `decodeURIComponent` on character lists. -/
def percentDecodeList (cs : List Char) : Option (List Char) :=
  (tokenizeEscapes cs).bind utf8Assemble

/-- Model of `decodeURIComponent`: `none` models a thrown `URIError`. -/
def percentDecode (s : String) : Option String :=
  (percentDecodeList s.data).map String.mk

/-- Uppercase hexadecimal digit for a value `< 16`. -/
def toHexChar (n : Nat) : Char :=
  if n < 10 then Char.ofNat (48 + n) else Char.ofNat (55 + n)

/-- Characters that `encodeURIComponent` leaves unescaped:
`A–Z a–z 0–9 - _ . ! ~ * ' ( )`. -/
def isUriUnreserved (c : Char) : Bool :=
  c.isAlphanum ∨ c ∈ ['-', '_', '.', '!', '~', '*', Char.ofNat 39, '(', ')']

/-- UTF-8 bytes of a character. -/
def utf8Bytes (c : Char) : List Nat :=
  let n := c.toNat
  if n < 0x80 then [n]
  else if n < 0x800 then [0xC0 + n / 64, 0x80 + n % 64]
  else if n < 0x10000 then [0xE0 + n / 4096, 0x80 + (n / 64) % 64, 0x80 + n % 64]
  else [0xF0 + n / 262144, 0x80 + (n / 4096) % 64, 0x80 + (n / 64) % 64, 0x80 + n % 64]

/-- `%HH` escape of a byte, uppercase hex as `encodeURIComponent` produces. -/
def encodeByte (b : Nat) : List Char :=
  ['%', toHexChar (b / 16), toHexChar (b % 16)]

/-- Encoding of a single character. -/
def encodeChar (c : Char) : List Char :=
  if isUriUnreserved c then [c] else ((utf8Bytes c).map encodeByte).flatten

/-- Model of JavaScript `encodeURIComponent`. -/
def encodeURIComponent (s : String) : String :=
  String.mk ((s.data.map encodeChar).flatten)

/-! ## French collation model and sorting

The server sorts listing rows with
`rows.sort((a, b) => (b.isDir - a.isDir) || a.name.localeCompare(b.name, 'fr'))`.
`localeCompare(·, 'fr')` is modelled as a two-level collation: the primary
level folds case and the French accents onto the base letter, ties are broken
by raw code points.  On the ASCII and Latin-1 inputs appearing in this
development this agrees with the Unicode collation used by `Intl`. -/

/-- Case- and accent-folding of a character (primary collation level). -/
def foldChar (c : Char) : Char :=
  if c ∈ ['à', 'â', 'ä', 'À', 'Â', 'Ä'] then 'a'
  else if c ∈ ['é', 'è', 'ê', 'ë', 'É', 'È', 'Ê', 'Ë'] then 'e'
  else if c ∈ ['î', 'ï', 'Î', 'Ï'] then 'i'
  else if c ∈ ['ô', 'ö', 'Ô', 'Ö'] then 'o'
  else if c ∈ ['ù', 'û', 'ü', 'Ù', 'Û', 'Ü'] then 'u'
  else if c ∈ ['ç', 'Ç'] then 'c'
  else if c = 'ÿ' then 'y'
  else c.toLower

/-- Flattened collation key: primary level (folded letters, shifted by 1),
a separator `0`, then the raw code points (shifted by 1).  Lexicographic
comparison of these flat keys is exactly lexicographic comparison of the
(primary, raw) pairs. -/
def frKey (s : String) : List Nat :=
  (s.data.map (fun c => (foldChar c).toNat + 1)) ++ [0] ++ (s.data.map (fun c => c.toNat + 1))

/-- Lexicographic `≤` on lists of naturals. -/
def lexLeNat : List Nat → List Nat → Bool
  | [], _ => true
  | _ :: _, [] => false
  | a :: as, b :: bs =>
    if a < b then true
    else if b < a then false
    else lexLeNat as bs

/-- Model of `a.name.localeCompare(b.name, 'fr') ≤ 0`. -/
def nameLe (a b : String) : Prop := lexLeNat (frKey a) (frKey b) = true

instance : DecidableRel nameLe := fun a b => by unfold nameLe; infer_instance

/-! ## Server configuration (from the sectioned `server.js` variant) -/

/-- The physical root `path.resolve(__dirname, 'files')`.  Its concrete value
is irrelevant to every property proved here; it is fixed to a representative
absolute path. -/
def ROOT : String := "/srv/app/files"

/-- Physical root of the `/docs` section. -/
def docsDir : String := ROOT ++ "/docs"

/-- Physical root of the `/games` section. -/
def gamesDir : String := ROOT ++ "/games"

/-- A games bucket: URL slug, physical directory, display mode tag. -/
structure Bucket where
  slug : String
  dir : String
  mode : String
deriving DecidableEq

/-- `GAMES_BUCKETS` from the source: `solo` displays as mode `"solo"`,
`multi` displays as mode `"coop"`. -/
def GAMES_BUCKETS : List Bucket :=
  [⟨"solo", gamesDir ++ "/solo", "solo"⟩, ⟨"multi", gamesDir ++ "/multi", "coop"⟩]

/-- The registered section keys, in object-key order (`/docs` was declared
first, `/games` added afterwards). -/
def sectionKeys : List String := ["/docs", "/games"]

/-- Physical root of a section key. -/
def sectionRootFor (key : String) : String :=
  if key = "/docs" then docsDir else gamesDir

/-- The matching condition of `matchSection` for one key:
`urlPath === key || urlPath.startsWith(key + '/') || urlPath.startsWith(key + '%2F')`. -/
def sectionCond (key p : String) : Bool :=
  p == key || strStartsWith p (key ++ "/") || strStartsWith p (key ++ "%2F")

/-- `matchSection(urlPath)`: first registered key whose condition holds. -/
def matchSection (p : String) : Option String :=
  sectionKeys.find? (fun k => sectionCond k p)

/-- `resolvePathSafe(sectionRoot, sectionRelPath)` from the sectioned variant:
percent-decode (a decode failure is caught and returns `null`), resolve
against the root, then reject unless the result is the root itself or extends
`root + '/'`. -/
def resolvePathSafe (sectionRoot sectionRelPath : String) : Option String :=
  match percentDecode (if sectionRelPath = "" then "/" else sectionRelPath) with
  | none => none
  | some decoded =>
    let abs := pathResolve sectionRoot decoded
    let rootNorm := if strEndsWith sectionRoot "/" then sectionRoot else sectionRoot ++ "/"
    if ¬ strStartsWith abs rootNorm ∧ abs ≠ sectionRoot then none else some abs

/-- `isAllowedGamesRel(rel)`: strip trailing slashes, then allow only the
section root and the `solo` / `multi` subtrees. -/
def isAllowedGamesRel (rel : String) : Bool :=
  let clean := stripTrailingSlashes (if rel = "" then "/" else rel)
  clean == "/" || clean == "" ||
    clean == "/solo" || strStartsWith clean "/solo/" ||
    clean == "/multi" || strStartsWith clean "/multi/"

/-- `inferModeFromRel(rel)`: display mode when browsing inside a bucket. -/
def inferModeFromRel (rel : String) : Option String :=
  if rel = "" then none
  else if rel = "/solo" || strStartsWith rel "/solo/" then some "solo"
  else if rel = "/multi" || strStartsWith rel "/multi/" then some "coop"
  else none

/-! ## Filesystem oracle and request-handler models -/

/-- Result of a successful `lstat`. -/
structure Stat where
  isDir : Bool
  size : Nat
  mtime : Nat
deriving DecidableEq

/-- Distinguishable `lstat` / `readdir` failures. -/
inductive StatErr
  | enoent
  | eacces
  | eio
deriving DecidableEq

/-- A directory entry as returned by `readdir(..., { withFileTypes: true })`. -/
structure Dirent where
  name : String
  dirFlag : Bool
  fileFlag : Bool
deriving DecidableEq

/-- The filesystem oracle a request runs against. -/
structure Fs where
  lstat : String → Except StatErr Stat
  readdir : String → Except StatErr (List Dirent)

/-- A filesystem operation performed while handling a request. -/
inductive FsOp
  | lstat (p : String)
  | readdir (p : String)
deriving DecidableEq

/-- A listing row as built by the index handlers. -/
structure Row where
  name : String
  href : String
  isDir : Bool
  size : Option Nat
  mtime : Nat
  mode : Option String
deriving DecidableEq

/-- The possible outcomes of the middleware pipeline for one request. -/
inductive Response
  | homePage
  | passNext
  | downloadFile (abs : String)
  | badRequest (msg : String)
  | notFound (msg : String)
  | unionPage (rows : List Row)
  | listingPage (rows : List Row)
  | serverError
deriving DecidableEq

/-- Sort key of a row: directories (rank 0) before files (rank 1), then the
French collation key of the name. -/
def rowKey (r : Row) : List Nat :=
  (if r.isDir then 0 else 1) :: frKey r.name

/-- Model of the row comparator
`(b.isDir - a.isDir) || a.name.localeCompare(b.name, 'fr')`. -/
def rowLe (a b : Row) : Prop := lexLeNat (rowKey a) (rowKey b) = true

instance : DecidableRel rowLe := fun a b => by unfold rowLe; infer_instance

/-- Model of `rows.sort(...)` in the directory-listing branches (a stable
sort by the row comparator). -/
def sortRows (rows : List Row) : List Row := List.insertionSort rowLe rows

/-- Model of `rows.sort((a, b) => a.name.localeCompare(b.name, 'fr'))` in the
union branch. -/
def sortRowsByName (rows : List Row) : List Row :=
  List.insertionSort (fun a b => nameLe a.name b.name) rows

/-- `href` of a child entry: the trailing-slash-guaranteed current request
path, plus the percent-encoded entry name, plus `'/'` for directories. -/
def rowHref (reqPath name : String) (isDir : Bool) : String :=
  (if strEndsWith reqPath "/" then reqPath else reqPath ++ "/") ++
    encodeURIComponent name ++ (if isDir then "/" else "")

/-- Child-row loop of the sectioned index handler: each child is `lstat`ed,
and a failing child is skipped (`try { ... } catch { continue; }`). -/
def childRows (fs : Fs) (abs reqPath : String) (mode : Option String) :
    List Dirent → List Row × List FsOp
  | [] => ([], [])
  | e :: rest =>
    let full := pathJoin abs e.name
    let (rows, ops) := childRows fs abs reqPath mode rest
    match fs.lstat full with
    | .error _ => (rows, .lstat full :: ops)
    | .ok s =>
      ({ name := e.name ++ (if e.dirFlag then "/" else "")
         href := rowHref reqPath e.name e.dirFlag
         isDir := e.dirFlag
         size := if e.dirFlag then none else some s.size
         mtime := s.mtime
         mode := if e.dirFlag then none else mode } :: rows,
       .lstat full :: ops)

/-- Per-entry loop of the union view for one bucket: only regular files are
kept (`if (!e.isFile()) continue`), and a failing `lstat` skips the entry. -/
def bucketEntryRows (fs : Fs) (b : Bucket) : List Dirent → List Row × List FsOp
  | [] => ([], [])
  | e :: rest =>
    let (rows, ops) := bucketEntryRows fs b rest
    if ¬ e.fileFlag then (rows, ops)
    else
      let full := pathJoin b.dir e.name
      match fs.lstat full with
      | .error _ => (rows, .lstat full :: ops)
      | .ok s =>
        ({ name := e.name
           href := "/games/" ++ b.slug ++ "/" ++ encodeURIComponent e.name
           isDir := false
           size := some s.size
           mtime := s.mtime
           mode := some b.mode } :: rows,
         .lstat full :: ops)

/-- Union view contribution of one bucket: a missing or unreadable bucket
directory is skipped entirely (`catch { continue; }`). -/
def bucketRows (fs : Fs) (b : Bucket) : List Row × List FsOp :=
  match fs.readdir b.dir with
  | .error _ => ([], [.readdir b.dir])
  | .ok list =>
    let (rows, ops) := bucketEntryRows fs b list
    (rows, .readdir b.dir :: ops)

/-- Rows of the aggregated `/games` union view, bucket by bucket. -/
def unionAccum (fs : Fs) : List Bucket → List Row × List FsOp
  | [] => ([], [])
  | b :: rest =>
    let (r, o) := bucketRows fs b
    let (rs, os) := unionAccum fs rest
    (r ++ rs, o ++ os)

/-- The union branch of the section index handler. -/
def unionView (fs : Fs) : Response × List FsOp :=
  let (rows, ops) := unionAccum fs GAMES_BUCKETS
  (.unionPage (sortRowsByName rows), ops)

/-- The download middleware of the sectioned variant. -/
def downloadHandler (fs : Fs) (reqPath : String) : Response × List FsOp :=
  match matchSection reqPath with
  | none => (.passNext, [])
  | some key =>
    let sectionRoot := sectionRootFor key
    let rel := if strDrop reqPath key.length = "" then "/" else strDrop reqPath key.length
    if key = "/games" ∧ ¬ isAllowedGamesRel rel then (.passNext, [])
    else
      match resolvePathSafe sectionRoot rel with
      | none => (.badRequest "Chemin invalide", [])
      | some abs =>
        match fs.lstat abs with
        | .error _ => (.passNext, [.lstat abs])
        | .ok st =>
          if st.isDir then (.passNext, [.lstat abs])
          else (.downloadFile abs, [.lstat abs])

/-- The section index middleware of the sectioned variant. -/
def indexHandler (fs : Fs) (reqPath : String) : Response × List FsOp :=
  match matchSection reqPath with
  | none => (.passNext, [])
  | some key =>
    let sectionRoot := sectionRootFor key
    let rel := if strDrop reqPath key.length = "" then "/" else strDrop reqPath key.length
    if key = "/games" ∧ (rel = "/" ∨ rel = "") then unionView fs
    else if key = "/games" ∧ ¬ isAllowedGamesRel rel then (.notFound "Introuvable", [])
    else
      match resolvePathSafe sectionRoot rel with
      | none => (.badRequest "Chemin invalide", [])
      | some abs =>
        match fs.lstat abs with
        | .error _ => (.notFound "Introuvable", [.lstat abs])
        | .ok st =>
          if ¬ st.isDir then (.passNext, [.lstat abs])
          else
            match fs.readdir abs with
            | .error _ => (.serverError, [.lstat abs, .readdir abs])
            | .ok list =>
              let mode := if key = "/games" then inferModeFromRel rel else none
              let (rows, ops) := childRows fs abs reqPath mode list
              (.listingPage (sortRows rows), [.lstat abs, .readdir abs] ++ ops)

/-- The middleware pipeline of the sectioned variant: home route, then the
download middleware, then the section index middleware. -/
def pipeline (fs : Fs) (reqPath : String) : Response × List FsOp :=
  if reqPath = "/" then (.homePage, [])
  else
    let (r1, o1) := downloadHandler fs reqPath
    match r1 with
    | .passNext =>
      let (r2, o2) := indexHandler fs reqPath
      (r2, o1 ++ o2)
    | r => (r, o1)

/-! ## The plain `server.js` variant

`server.js` serves a single root with no sections.  Its `resolvePathSafe` does
not guard `decodeURIComponent` (a decode failure is an exception that the
handler's outer `catch` turns into `next(e)`, i.e. the 500 error middleware),
and its child-listing loop `lstat`s each child *without* a `try`/`catch`, so a
failing child aborts the whole request into the error middleware. -/

/-- `resolvePathSafe(root, urlPath)` from `server.js`: `.error ()` models the
uncaught `URIError` escaping the function, `.ok none` models `null`. -/
def serverJsResolvePathSafe (root urlPath : String) : Except Unit (Option String) :=
  match percentDecode (if urlPath = "" then "/" else urlPath) with
  | none => .error ()
  | some decoded =>
    let abs := pathResolve root decoded
    let rootNorm := if strEndsWith root "/" then root else root ++ "/"
    if ¬ strStartsWith abs rootNorm ∧ abs ≠ root then .ok none else .ok (some abs)

/-- Child-row loop of `server.js`'s index handler: `const s = await fs.lstat(full);`
has no `try`/`catch`, so the first failing child aborts the loop with its
error. -/
def serverJsChildRows (fs : Fs) (abs reqPath : String) :
    List Dirent → Except StatErr (List Row) × List FsOp
  | [] => (.ok [], [])
  | e :: rest =>
    let full := pathJoin abs e.name
    match fs.lstat full with
    | .error err => (.error err, [.lstat full])
    | .ok s =>
      let (r, ops) := serverJsChildRows fs abs reqPath rest
      match r with
      | .error err => (.error err, .lstat full :: ops)
      | .ok rows =>
        (.ok ({ name := e.name ++ (if e.dirFlag then "/" else "")
                href := rowHref reqPath e.name e.dirFlag
                isDir := e.dirFlag
                size := if e.dirFlag then none else some s.size
                mtime := s.mtime
                mode := none } :: rows),
         .lstat full :: ops)

/-- The index middleware of `server.js` (any exception reaches the error
middleware, modelled as `serverError`). -/
def serverJsIndexHandler (fs : Fs) (reqPath : String) : Response × List FsOp :=
  match serverJsResolvePathSafe ROOT reqPath with
  | .error _ => (.serverError, [])
  | .ok none => (.badRequest "Chemin invalide", [])
  | .ok (some abs) =>
    match fs.lstat abs with
    | .error _ => (.notFound "Introuvable", [.lstat abs])
    | .ok st =>
      if ¬ st.isDir then (.passNext, [.lstat abs])
      else
        match fs.readdir abs with
        | .error _ => (.serverError, [.lstat abs, .readdir abs])
        | .ok list =>
          let (r, ops) := serverJsChildRows fs abs reqPath list
          match r with
          | .error _ => (.serverError, [.lstat abs, .readdir abs] ++ ops)
          | .ok rows => (.listingPage (sortRows rows), [.lstat abs, .readdir abs] ++ ops)

/-! ## Spec-side definitions (for refinement comparisons only) -/

/-- Following the spec's words for the access filter: the first non-empty
`'/'`-separated segment of a relative path.  Used only to compare the spec's
"first non-empty segment equals a registered bucket slug" rule against
`isAllowedGamesRel`. -/
def specFirstNonEmptySeg (rel : String) : Option String :=
  (segsOf rel).head?

/-- Following the spec's words: a relative path is permitted under the
restricted `/games` section iff it has no non-empty segment (section root) or
its first non-empty segment is a registered bucket slug. -/
def specPermittedGames (rel : String) : Bool :=
  match specFirstNonEmptySeg rel with
  | none => true
  | some seg => (GAMES_BUCKETS.map Bucket.slug).contains seg

/-! ## Concrete filesystem oracles and outcome predicates used by the theorems -/

/-- A regular-file dirent. -/
def direntFile (n : String) : Dirent := ⟨n, false, true⟩

/-- A directory dirent. -/
def direntDir (n : String) : Dirent := ⟨n, true, false⟩

/-- Stat of a regular file of the given size and mtime. -/
def statFile (sz mt : Nat) : Stat := ⟨false, sz, mt⟩

/-- Stat of a directory. -/
def statDir : Stat := ⟨true, 0, 0⟩

/-- The empty filesystem: every operation fails with `ENOENT`. -/
def fsNone : Fs where
  lstat _ := .error .enoent
  readdir _ := .error .enoent

/-- A filesystem whose every `lstat` succeeds with the given stat. -/
def fsOkStat (s : Stat) : Fs where
  lstat _ := .ok s
  readdir _ := .error .enoent

/-- A filesystem whose every `lstat` fails with the given error. -/
def fsLstatErr (e : StatErr) : Fs where
  lstat _ := .error e
  readdir _ := .error .eio

/-- Games tree for the union-view properties: bucket `solo` enumerated in the
given order, bucket `multi` holding `c.zip`. -/
def fsGamesUnion (soloList : List Dirent) : Fs where
  lstat p :=
    if p = gamesDir then .ok statDir
    else if p = gamesDir ++ "/solo/a.zip" then .ok (statFile 100 10)
    else if p = gamesDir ++ "/solo/b.zip" then .ok (statFile 200 20)
    else if p = gamesDir ++ "/multi/c.zip" then .ok (statFile 300 30)
    else .error .enoent
  readdir p :=
    if p = gamesDir ++ "/solo" then .ok soloList
    else if p = gamesDir ++ "/multi" then .ok [direntFile "c.zip"]
    else .error .enoent

/-- Games tree whose `solo` bucket directory is unreadable. -/
def fsGamesUnionNoSolo : Fs where
  lstat p := if p = gamesDir ++ "/multi/c.zip" then .ok (statFile 300 30) else .error .enoent
  readdir p := if p = gamesDir ++ "/multi" then .ok [direntFile "c.zip"] else .error .eacces

/-- Games tree whose physical root contains the buckets and a non-bucket
sibling directory `other`. -/
def fsGamesSiblings : Fs where
  lstat p :=
    if p = gamesDir then .ok statDir
    else if p = gamesDir ++ "/solo" then .ok statDir
    else if p = gamesDir ++ "/multi" then .ok statDir
    else if p = gamesDir ++ "/other" then .ok statDir
    else .error .enoent
  readdir p :=
    if p = gamesDir then .ok [direntDir "solo", direntDir "multi", direntDir "other"]
    else .error .enoent

/-- Docs tree with three children of which `b.txt` cannot be `lstat`ed. -/
def fsDocsThree : Fs where
  lstat p :=
    if p = docsDir then .ok statDir
    else if p = docsDir ++ "/a.txt" then .ok (statFile 1 1)
    else if p = docsDir ++ "/b.txt" then .error .eacces
    else if p = docsDir ++ "/c.txt" then .ok (statFile 3 3)
    else .error .enoent
  readdir p :=
    if p = docsDir then .ok [direntFile "a.txt", direntFile "b.txt", direntFile "c.txt"]
    else .error .enoent

/-- Root tree (for the plain `server.js` variant) with three children of
which `b.txt` cannot be `lstat`ed. -/
def fsRootThree : Fs where
  lstat p :=
    if p = ROOT then .ok statDir
    else if p = ROOT ++ "/a.txt" then .ok (statFile 1 1)
    else if p = ROOT ++ "/b.txt" then .error .eacces
    else if p = ROOT ++ "/c.txt" then .ok (statFile 3 3)
    else .error .enoent
  readdir p :=
    if p = ROOT then .ok [direntFile "a.txt", direntFile "b.txt", direntFile "c.txt"]
    else .error .enoent

/-- The containment outcome demanded of `resolvePathSafe`:
either rejection, or a path equal to the root or extending `root + '/'`. -/
def isSafeOutcome (root : String) : Option String → Prop
  | none => True
  | some abs => abs = root ∨ strStartsWith abs (root ++ "/") = true

/-! # Helper lemmas -/

theorem strStartsWith_iff {s pre : String} :
    strStartsWith s pre = true ↔ pre.data <+: s.data := by
  unfold strStartsWith; exact List.isPrefixOf_iff_prefix

theorem strDrop_append (a b : String) : strDrop (a ++ b) a.length = b := by
  unfold strDrop
  rw [String.data_append, String.length]
  rw [List.drop_left]

theorem getElem1_of_prefix {l p : List Char} {c : Char} (hpre : l <+: p)
    (h : l[1]? = some c) : p[1]? = some c := by
  obtain ⟨t, rfl⟩ := hpre
  have hlen : 1 < l.length := by
    rcases hl : l with _ | ⟨a, _ | ⟨b, rest⟩⟩ <;> subst hl <;> simp_all
  rw [List.getElem?_append, if_pos hlen]
  exact h

theorem sectionCond_docs_char {p : String} (h : sectionCond "/docs" p = true) :
    p.data[1]? = some 'd' := by
  unfold sectionCond at h
  simp only [Bool.or_eq_true, beq_iff_eq, strStartsWith_iff] at h
  rcases h with (h | h) | h
  · subst h; rfl
  · exact getElem1_of_prefix h rfl
  · exact getElem1_of_prefix h rfl

theorem sectionCond_games_char {p : String} (h : sectionCond "/games" p = true) :
    p.data[1]? = some 'g' := by
  unfold sectionCond at h
  simp only [Bool.or_eq_true, beq_iff_eq, strStartsWith_iff] at h
  rcases h with (h | h) | h
  · subst h; rfl
  · exact getElem1_of_prefix h rfl
  · exact getElem1_of_prefix h rfl

theorem matchSection_eq (p : String) :
    matchSection p = if sectionCond "/docs" p then some "/docs"
      else if sectionCond "/games" p then some "/games" else none := by
  unfold matchSection sectionKeys
  cases h1 : sectionCond "/docs" p <;> cases h2 : sectionCond "/games" p <;>
    simp [List.find?, h1, h2]

theorem sectionCond_docs_of_games {p : String} (h : sectionCond "/games" p = true) :
    sectionCond "/docs" p = false := by
  cases hdd : sectionCond "/docs" p
  · rfl
  · exfalso
    have h1 := sectionCond_docs_char hdd
    have h2 := sectionCond_games_char h
    rw [h1] at h2
    exact absurd (Option.some.inj h2) (by decide)

/-! # Claim theorems -/

/-- Claim C1: for every physical root (no trailing separator, as all
registered roots are) and every relative URL path — including any sequence of
`..` segments — `resolvePathSafe root p` returns either `none` (rejection) or
an absolute path equal to `root` or having `root ++ "/"` as a strict prefix,
never a path outside `root`; and a path whose prefix merely matches the root
without a separator boundary (`/files2` against root `/files`) is rejected,
as is a multi-`..` traversal. -/
theorem resolvePathSafe_never_escapes :
    (∀ root rel, strEndsWith root "/" = false →
      isSafeOutcome root (resolvePathSafe root rel)) ∧
    resolvePathSafe "/files" "/../files2" = none ∧
    resolvePathSafe "/srv/files" "/solo/../../../etc/passwd" = none := by
  refine ⟨?_, by decide, by decide⟩
  intro root rel h
  unfold resolvePathSafe
  cases hd : percentDecode (if rel = "" then "/" else rel) with
  | none => trivial
  | some d =>
    simp only [h, Bool.false_eq_true, if_false]
    split
    · trivial
    · rename_i hcond
      unfold isSafeOutcome
      push_neg at hcond
      by_cases hpre : strStartsWith (pathResolve root d) (root ++ "/") = true
      · exact Or.inr hpre
      · exact Or.inl (hcond (by simpa using hpre))

/-- Witness for C1 at a concrete root and path. -/
theorem resolvePathSafe_never_escapes_witness :
    strEndsWith "/files" "/" = false ∧
      isSafeOutcome "/files" (resolvePathSafe "/files" "/a/../b") :=
  ⟨by decide, resolvePathSafe_never_escapes.1 "/files" "/a/../b" (by decide)⟩

/-- Claim C3: `matchSection urlPath` returns a section key iff the URL path
equals that registered key exactly, or starts with the key followed by `"/"`
(decoded) or by `"%2F"` (still-percent-encoded); matching respects segment
boundaries, so `/games2` matches nothing. -/
theorem matchSection_characterization :
    (∀ p k, matchSection p = some k ↔ k ∈ sectionKeys ∧ sectionCond k p = true) ∧
    matchSection "/games2" = none ∧
    matchSection "/games" = some "/games" ∧
    matchSection "/games/x" = some "/games" ∧
    matchSection "/games%2Fx" = some "/games" := by
  refine ⟨?_, by decide, by decide, by decide, by decide⟩
  intro p k
  rw [matchSection_eq]
  constructor
  · intro h
    by_cases h1 : sectionCond "/docs" p = true
    · rw [if_pos h1] at h
      cases h
      exact ⟨by decide, h1⟩
    · rw [if_neg h1] at h
      by_cases h2 : sectionCond "/games" p = true
      · rw [if_pos h2] at h
        cases h
        exact ⟨by decide, h2⟩
      · rw [if_neg h2] at h
        cases h
  · rintro ⟨hk, hc⟩
    have hk' : k = "/docs" ∨ k = "/games" := by
      simpa [sectionKeys] using hk
    rcases hk' with rfl | rfl
    · rw [if_pos hc]
    · rw [if_neg (by simp [sectionCond_docs_of_games hc]), if_pos hc]

/-- Claim C4 (amended): in the sectioned index pipeline *every* `lstat`
failure on the resolved path — not-found, permission error or I/O error alike
— is answered with the 404 `Introuvable` response; no stat failure reaches
the 500 error middleware. -/
theorem lstat_error_yields_notFound :
    ∀ e : StatErr, pipeline (fsLstatErr e) "/docs/x" =
      (Response.notFound "Introuvable",
        [FsOp.lstat (docsDir ++ "/x"), FsOp.lstat (docsDir ++ "/x")]) := by
  intro e
  rfl

/-- Claim C4 counterexample: a permission error (`EACCES`) on an existing
path is surfaced as the 404 `Introuvable` response, not as an internal server
error. -/
theorem lstat_permission_error_is_404 :
    (pipeline (fsLstatErr .eacces) "/docs/x").fst = Response.notFound "Introuvable" ∧
    (pipeline (fsLstatErr .eacces) "/docs/x").fst ≠ Response.serverError :=
  ⟨rfl, by decide⟩

theorem strStartsWith_slash_ne_empty {rel : String} (h : strStartsWith rel "/" = true) :
    rel ≠ "" := by
  rw [strStartsWith_iff] at h
  obtain ⟨t, ht⟩ := h
  intro hc
  subst hc
  simp at ht

theorem append_rel_ne_root {k rel : String} (hk : 2 ≤ k.length) :
    k ++ rel ≠ "/" := by
  intro h
  have hl := congrArg String.length h
  rw [String.length_append] at hl
  have h1 : ("/" : String).length = 1 := rfl
  omega

theorem sectionCond_self_append {k rel : String} (h : strStartsWith rel "/" = true) :
    sectionCond k (k ++ rel) = true := by
  have h2 : strStartsWith (k ++ rel) (k ++ "/") = true := by
    rw [strStartsWith_iff] at h ⊢
    obtain ⟨t, ht⟩ := h
    refine ⟨t, ?_⟩
    rw [String.data_append, String.data_append, List.append_assoc, ← ht]
  unfold sectionCond
  rw [h2]
  simp

theorem matchSection_docs_append {rel : String} (h : strStartsWith rel "/" = true) :
    matchSection ("/docs" ++ rel) = some "/docs" := by
  rw [matchSection_eq, if_pos (sectionCond_self_append h)]

theorem matchSection_games_append {rel : String} (h : strStartsWith rel "/" = true) :
    matchSection ("/games" ++ rel) = some "/games" := by
  have hg := sectionCond_self_append (k := "/games") h
  rw [matchSection_eq, if_neg (by simp [sectionCond_docs_of_games hg]), if_pos hg]

theorem strDrop_docs (rel : String) : strDrop ("/docs" ++ rel) ("/docs" : String).length = rel :=
  strDrop_append "/docs" rel

theorem strDrop_games (rel : String) : strDrop ("/games" ++ rel) ("/games" : String).length = rel :=
  strDrop_append "/games" rel

/-- Claim C7: a rejection by `resolvePathSafe` — whether caused by a
percent-decoding failure or by a traversal escaping the section root — is
answered with the same client error, HTTP 400 `Chemin invalide`, the request
is terminated, and no filesystem operation whatsoever is performed (the
result holds for *every* filesystem oracle, with an empty operation trace). -/
theorem rejected_path_uniform_400 :
    ∀ (fs : Fs) (rel : String), strStartsWith rel "/" = true →
      resolvePathSafe docsDir rel = none →
      pipeline fs ("/docs" ++ rel) = (Response.badRequest "Chemin invalide", []) := by
  intro fs rel hrel hres
  have hne : ("/docs" ++ rel) ≠ "/" := append_rel_ne_root (by decide)
  have hrelne : rel ≠ "" := strStartsWith_slash_ne_empty hrel
  unfold pipeline
  rw [if_neg hne]
  unfold downloadHandler
  rw [matchSection_docs_append hrel]
  simp only [strDrop_docs, if_neg hrelne]
  have hkey : ¬ (("/docs" : String) = "/games" ∧ ¬ isAllowedGamesRel rel = true) := by
    rintro ⟨h, -⟩
    exact absurd h (by decide)
  rw [if_neg hkey]
  have hroot : sectionRootFor "/docs" = docsDir := rfl
  rw [hroot, hres]

/-- Witness for C7: a malformed escape (`%zz`) and a `..` traversal are both
answered 400 `Chemin invalide` with no filesystem access. -/
theorem rejected_path_uniform_400_witness :
    pipeline fsNone "/docs/%zz" = (Response.badRequest "Chemin invalide", []) ∧
    pipeline fsNone "/docs/.." = (Response.badRequest "Chemin invalide", []) :=
  ⟨rejected_path_uniform_400 fsNone "/%zz" (by decide) (by decide),
   rejected_path_uniform_400 fsNone "/.." (by decide) (by decide)⟩

theorem head?_dropWhile_false {α : Type} (p : α → Bool) (a : α) :
    ∀ l : List α, (l.dropWhile p).head? = some a → p a = false := by
  intro l
  induction l with
  | nil => intro h; simp at h
  | cons c rest ih =>
    intro h
    rw [List.dropWhile_cons] at h
    by_cases hc : p c = true
    · rw [if_pos hc] at h
      exact ih h
    · rw [if_neg hc] at h
      simp at h
      subst h
      simpa using hc

theorem stripTrailingSlashes_ne_slash (s : String) : stripTrailingSlashes s ≠ "/" := by
  intro h
  have hd := congrArg String.data h
  unfold stripTrailingSlashes at hd
  simp only [] at hd
  have h2 : (s.data.reverse.dropWhile (· = '/')) = ['/'] := by
    have := congrArg List.reverse hd
    simpa using this
  have h3 : ((s.data.reverse.dropWhile (· = '/'))).head? = some '/' := by
    rw [h2]; rfl
  have := head?_dropWhile_false (· = '/') '/' s.data.reverse h3
  simp at this

theorem gamesDisallowed_download (fs : Fs) (rel : String)
    (hrel : strStartsWith rel "/" = true) (hfalse : isAllowedGamesRel rel = false) :
    downloadHandler fs ("/games" ++ rel) = (Response.passNext, []) := by
  have hrelne : rel ≠ "" := strStartsWith_slash_ne_empty hrel
  unfold downloadHandler
  rw [matchSection_games_append hrel]
  simp [strDrop_games, hrelne, hfalse]

theorem gamesDisallowed_index (fs : Fs) (rel : String)
    (hrel : strStartsWith rel "/" = true) (hfalse : isAllowedGamesRel rel = false) :
    indexHandler fs ("/games" ++ rel) = (Response.notFound "Introuvable", []) := by
  have hrelne : rel ≠ "" := strStartsWith_slash_ne_empty hrel
  have hslash : rel ≠ "/" := by
    intro h
    rw [h] at hfalse
    exact absurd hfalse (by decide)
  unfold indexHandler
  rw [matchSection_games_append hrel]
  simp [strDrop_games, hrelne, hslash, hfalse]

/-- Claim C2 counterexample: the relative path `//solo` has first non-empty
segment `solo`, which is a registered bucket slug, yet `isAllowedGamesRel`
returns `false` — refuting "true for any relative path whose first non-empty
segment equals a bucket slug". -/
theorem games_access_filter_counterexample :
    specFirstNonEmptySeg "//solo" = some "solo" ∧
    (GAMES_BUCKETS.map Bucket.slug).contains "solo" = true ∧
    specPermittedGames "//solo" = true ∧
    isAllowedGamesRel "//solo" = false := by decide

/-- Claim C2 (amended): `isAllowedGamesRel` is true exactly for the section
root (after stripping trailing slashes, the empty path) and for paths that
are `"/" ++ slug` or start with `"/" ++ slug ++ "/"` for a registered bucket
slug — a *single-slash* segment boundary, so `//solo` is rejected; it is true
for `/`, ``, `/solo`, `/solo/anything`, `/multi/x/y` and false for `/other`,
`/solo2`, `/..%2f..`; and a request for a disallowed relative path under
`/games` is answered 404 `Introuvable` with no filesystem access at all. -/
theorem games_access_filter_amended :
    (∀ rel, isAllowedGamesRel rel = true ↔
      (stripTrailingSlashes (if rel = "" then "/" else rel) = "" ∨
        ∃ b ∈ GAMES_BUCKETS,
          stripTrailingSlashes (if rel = "" then "/" else rel) = "/" ++ b.slug ∨
          strStartsWith (stripTrailingSlashes (if rel = "" then "/" else rel))
            ("/" ++ b.slug ++ "/") = true)) ∧
    (isAllowedGamesRel "/" = true ∧ isAllowedGamesRel "" = true ∧
      isAllowedGamesRel "/solo" = true ∧ isAllowedGamesRel "/solo/anything" = true ∧
      isAllowedGamesRel "/multi/x/y" = true) ∧
    (isAllowedGamesRel "/other" = false ∧ isAllowedGamesRel "/solo2" = false ∧
      isAllowedGamesRel "/..%2f.." = false) ∧
    (∀ (fs : Fs) (rel : String), strStartsWith rel "/" = true →
      isAllowedGamesRel rel = false →
      pipeline fs ("/games" ++ rel) = (Response.notFound "Introuvable", [])) := by
  refine ⟨?_, by decide, by decide, ?_⟩
  · intro rel
    unfold isAllowedGamesRel
    simp only [Bool.or_eq_true, beq_iff_eq]
    constructor
    · rintro (((((h | h) | h) | h) | h) | h)
      · exact absurd h (stripTrailingSlashes_ne_slash _)
      · exact Or.inl h
      · exact Or.inr ⟨⟨"solo", gamesDir ++ "/solo", "solo"⟩, by simp [GAMES_BUCKETS], Or.inl h⟩
      · exact Or.inr ⟨⟨"solo", gamesDir ++ "/solo", "solo"⟩, by simp [GAMES_BUCKETS], Or.inr h⟩
      · exact Or.inr ⟨⟨"multi", gamesDir ++ "/multi", "coop"⟩, by simp [GAMES_BUCKETS], Or.inl h⟩
      · exact Or.inr ⟨⟨"multi", gamesDir ++ "/multi", "coop"⟩, by simp [GAMES_BUCKETS], Or.inr h⟩
    · rintro (h | ⟨b, hb, hcase⟩)
      · exact Or.inl (Or.inl (Or.inl (Or.inl (Or.inr h))))
      · have hb' : b = ⟨"solo", gamesDir ++ "/solo", "solo"⟩ ∨
            b = ⟨"multi", gamesDir ++ "/multi", "coop"⟩ := by
          simpa [GAMES_BUCKETS] using hb
        rcases hb' with rfl | rfl <;> rcases hcase with h | h
        · exact Or.inl (Or.inl (Or.inl (Or.inr h)))
        · exact Or.inl (Or.inl (Or.inr h))
        · exact Or.inl (Or.inr h)
        · exact Or.inr h
  · intro fs rel hrel hfalse
    have hne : ("/games" ++ rel) ≠ "/" := append_rel_ne_root (by decide)
    unfold pipeline
    rw [if_neg hne, gamesDisallowed_download fs rel hrel hfalse]
    rw [gamesDisallowed_index fs rel hrel hfalse]
    rfl

/-- Witness for the amended C2 at the concrete disallowed path `/other`. -/
theorem games_access_filter_amended_witness :
    strStartsWith "/other" "/" = true ∧ isAllowedGamesRel "/other" = false ∧
    pipeline fsNone "/games/other" = (Response.notFound "Introuvable", []) :=
  ⟨by decide, by decide,
    games_access_filter_amended.2.2.2 fsNone "/other" (by decide) (by decide)⟩

/-- Claim C5: the `/games` union listing contains only regular files of the
configured buckets (a sub-directory inside a bucket is not surfaced), a
missing or unreadable bucket contributes zero entries without error, every
entry carries its bucket's display tag (`solo` → `"solo"`, `multi` →
`"coop"`) and a bucket-slug href, and the result is sorted by name
independently of the enumeration order: buckets `solo = {b.zip, a.zip}` (in
either order) and `multi = {c.zip}` yield exactly
`[a.zip (solo), b.zip (solo), c.zip (multi)]`. -/
theorem union_listing_deterministic :
    (indexHandler (fsGamesUnion [direntFile "b.zip", direntFile "a.zip"]) "/games/").fst =
      Response.unionPage
        [⟨"a.zip", "/games/solo/a.zip", false, some 100, 10, some "solo"⟩,
         ⟨"b.zip", "/games/solo/b.zip", false, some 200, 20, some "solo"⟩,
         ⟨"c.zip", "/games/multi/c.zip", false, some 300, 30, some "coop"⟩] ∧
    (indexHandler (fsGamesUnion [direntFile "a.zip", direntFile "b.zip"]) "/games/").fst =
      Response.unionPage
        [⟨"a.zip", "/games/solo/a.zip", false, some 100, 10, some "solo"⟩,
         ⟨"b.zip", "/games/solo/b.zip", false, some 200, 20, some "solo"⟩,
         ⟨"c.zip", "/games/multi/c.zip", false, some 300, 30, some "coop"⟩] ∧
    (indexHandler (fsGamesUnion [direntFile "b.zip", direntDir "subdir", direntFile "a.zip"])
        "/games/").fst =
      Response.unionPage
        [⟨"a.zip", "/games/solo/a.zip", false, some 100, 10, some "solo"⟩,
         ⟨"b.zip", "/games/solo/b.zip", false, some 200, 20, some "solo"⟩,
         ⟨"c.zip", "/games/multi/c.zip", false, some 300, 30, some "coop"⟩] ∧
    (indexHandler fsGamesUnionNoSolo "/games/").fst =
      Response.unionPage
        [⟨"c.zip", "/games/multi/c.zip", false, some 300, 30, some "coop"⟩] := by
  refine ⟨by decide, by decide, by decide, by decide⟩

/-- Claim C6 counterexample: in `server.js`'s index handler, a directory of
three children of which `b.txt` cannot be `lstat`ed is *not* answered with a
listing of the other two — the unguarded child `lstat` aborts the request
into the 500 error middleware (and enumeration stops at the failing child). -/
theorem serverjs_child_stat_failure_500 :
    serverJsIndexHandler fsRootThree "/" =
      (Response.serverError,
        [FsOp.lstat ROOT, FsOp.readdir ROOT,
         FsOp.lstat (ROOT ++ "/a.txt"), FsOp.lstat (ROOT ++ "/b.txt")]) ∧
    Response.serverError ≠
      Response.listingPage
        [⟨"a.txt", "/a.txt", false, some 1, 1, none⟩,
         ⟨"c.txt", "/c.txt", false, some 3, 3, none⟩] := by
  refine ⟨by decide, by decide⟩

/-- Claim C6 (amended): in the sectioned index handler a child stat failure
is recovered by omitting that child only — of three children with `b.txt`
unreadable, the listing holds exactly the other two and the request succeeds
with a normal listing response; in `server.js`'s index handler the same
situation instead aborts into the 500 error middleware. -/
theorem child_stat_failure_partial_listing :
    (pipeline fsDocsThree "/docs/").fst =
      Response.listingPage
        [⟨"a.txt", "/docs/a.txt", false, some 1, 1, none⟩,
         ⟨"c.txt", "/docs/c.txt", false, some 3, 3, none⟩] ∧
    (serverJsIndexHandler fsRootThree "/").fst = Response.serverError := by
  refine ⟨by decide, by decide⟩

/-- Claim C8: for the restricted `/games` section the union view is produced
only at the exact section root; the relative path `/solo/..` passes the
allow-list filter, resolves safely to the physical games root itself, and is
answered by the plain directory-listing branch, which enumerates the physical
games directory's immediate children — including the non-bucket sibling
`other`. -/
theorem bucket_dotdot_lists_games_root :
    isAllowedGamesRel "/solo/.." = true ∧
    resolvePathSafe gamesDir "/solo/.." = some gamesDir ∧
    (pipeline fsGamesSiblings "/games/solo/..").fst =
      Response.listingPage
        [⟨"multi/", "/games/solo/../multi/", true, none, 0, none⟩,
         ⟨"other/", "/games/solo/../other/", true, none, 0, none⟩,
         ⟨"solo/", "/games/solo/../solo/", true, none, 0, none⟩] := by
  refine ⟨by decide, by decide, by decide⟩

theorem lexLeNat_total : ∀ a b : List Nat, lexLeNat a b = true ∨ lexLeNat b a = true := by
  intro a
  induction a with
  | nil => intro b; exact Or.inl rfl
  | cons x xs ih =>
    intro b
    cases b with
    | nil => exact Or.inr rfl
    | cons y ys =>
      by_cases h1 : x < y
      · exact Or.inl (by simp [lexLeNat, h1])
      · by_cases h2 : y < x
        · exact Or.inr (by simp [lexLeNat, h2])
        · rcases ih ys with h | h
          · exact Or.inl (by simp [lexLeNat, h1, h2, h])
          · exact Or.inr (by simp [lexLeNat, h1, h2, h])

theorem lexLeNat_trans : ∀ a b c : List Nat, lexLeNat a b = true → lexLeNat b c = true →
    lexLeNat a c = true := by
  intro a
  induction a with
  | nil => intro b c _ _; rfl
  | cons x xs ih =>
    intro b c hab hbc
    cases b with
    | nil => simp [lexLeNat] at hab
    | cons y ys =>
      cases c with
      | nil => simp [lexLeNat] at hbc
      | cons z zs =>
        simp only [lexLeNat] at hab hbc ⊢
        split_ifs at hab hbc ⊢ <;>
          first
            | rfl
            | omega
            | (exact ih ys zs hab hbc)

instance : IsTotal Row rowLe := ⟨fun _ _ => lexLeNat_total _ _⟩

instance : IsTrans Row rowLe := ⟨fun _ _ _ hab hbc => lexLeNat_trans _ _ _ hab hbc⟩

theorem rowLe_dir_order {a b : Row} (h : rowLe a b) (ha : a.isDir = false) :
    b.isDir = false := by
  unfold rowLe rowKey at h
  rw [ha] at h
  cases hb : b.isDir
  · rfl
  · rw [hb] at h
    simp [lexLeNat] at h

/-- Claim C9: listing rows are sorted with every directory before every file
and, within each group, by the (case- and accent-folding) French collation on
the name; the sort is a permutation of the input, and the concrete entries
`{b.txt (file), a (dir)}` sort to `[a (dir), b.txt (file)]`. -/
theorem listing_sort_order :
    (∀ rows, List.Sorted rowLe (sortRows rows)) ∧
    (∀ rows, (sortRows rows).Perm rows) ∧
    (∀ rows, (sortRows rows).Pairwise (fun a b => a.isDir = false → b.isDir = false)) ∧
    sortRows
        [⟨"b.txt", "/files/b.txt", false, some 5, 7, none⟩,
         ⟨"a/", "/files/a/", true, none, 7, none⟩] =
      [⟨"a/", "/files/a/", true, none, 7, none⟩,
       ⟨"b.txt", "/files/b.txt", false, some 5, 7, none⟩] := by
  refine ⟨?_, ?_, ?_, by decide⟩
  · intro rows
    exact List.sorted_insertionSort rowLe rows
  · intro rows
    exact List.perm_insertionSort rowLe rows
  · intro rows
    exact List.Pairwise.imp (fun h ha => rowLe_dir_order h ha)
      (List.sorted_insertionSort rowLe rows)

theorem tokenizeEscapes_append (a : List Char) : ∀ (b : List Char) (ta : List (Char ⊕ Nat)),
    tokenizeEscapes a = some ta →
    tokenizeEscapes (a ++ b) = (ta ++ ·) <$> tokenizeEscapes b := by
  induction a using tokenizeEscapes.induct with
  | case1 =>
    intro b ta h
    simp only [tokenizeEscapes] at h
    cases h
    simp only [List.nil_append]
    cases h2 : tokenizeEscapes b <;> simp [h2]
  | case2 c1 c2 rest2 x y hy hx ih =>
    intro b ta h
    simp [tokenizeEscapes, hx, hy] at h
    obtain ⟨tr, htr, rfl⟩ := h
    have hsh : ('%' :: c1 :: c2 :: rest2) ++ b = '%' :: c1 :: c2 :: (rest2 ++ b) := rfl
    rw [hsh]
    simp [tokenizeEscapes, hx, hy, ih b tr htr]
    cases h2 : tokenizeEscapes b <;> simp [h2]
  | case3 c1 c2 rest2 hfail =>
    intro b ta h
    simp [tokenizeEscapes] at h
  | case4 rest hshape =>
    intro b ta h
    rcases rest with _ | ⟨x, _ | ⟨y, r⟩⟩
    · simp [tokenizeEscapes] at h
    · simp [tokenizeEscapes] at h
    · exact absurd (hshape x y r rfl) not_false
  | case5 c rest hc ih =>
    intro b ta h
    rw [tokenizeEscapes.eq_def] at h
    simp only [if_neg hc] at h
    obtain ⟨tr, htr, rfl⟩ := Option.map_eq_some'.mp h
    have hsh : (c :: rest) ++ b = c :: (rest ++ b) := rfl
    rw [hsh, tokenizeEscapes.eq_def]
    simp only [if_neg hc, ih b tr htr]
    cases h2 : tokenizeEscapes b <;> simp [h2]

theorem asmAux_append (ta : List (Char ⊕ Nat)) : ∀ (st : Option (Nat × Nat × Nat × Nat))
    (tb : List (Char ⊕ Nat)) (da : List Char), asmAux ta st = some da →
    asmAux (ta ++ tb) st = (da ++ ·) <$> asmAux tb none := by
  induction ta with
  | nil =>
    intro st tb da h
    cases st with
    | none =>
      simp only [asmAux] at h
      cases h
      simp only [List.nil_append]
      cases h2 : asmAux tb none <;> simp [h2]
    | some s => simp [asmAux] at h
  | cons t rest ih =>
    intro st tb da h
    rcases t with c | b
    · cases st with
      | none =>
        simp only [asmAux] at h
        obtain ⟨dr, hdr, rfl⟩ := Option.map_eq_some'.mp h
        simp only [List.cons_append, asmAux, List.append_eq, ih none tb dr hdr]
        cases h2 : asmAux tb none <;> simp [h2]
      | some s => simp [asmAux] at h
    · cases st with
      | none =>
        simp only [asmAux] at h
        simp only [List.cons_append, asmAux, List.append_eq]
        split_ifs at h ⊢ <;>
          first
            | (obtain ⟨dr, hdr, rfl⟩ := Option.map_eq_some'.mp h
               rw [ih none tb dr hdr]
               cases h5 : asmAux tb none <;> simp [h5])
            | (exact ih _ tb da h)
      | some s =>
        obtain ⟨cp, need, lo, hi⟩ := s
        simp only [asmAux] at h
        simp only [List.cons_append, asmAux, List.append_eq]
        split_ifs at h ⊢ <;>
          first
            | (obtain ⟨dr, hdr, rfl⟩ := Option.map_eq_some'.mp h
               rw [ih none tb dr hdr]
               cases h5 : asmAux tb none <;> simp [h5])
            | (exact ih _ tb da h)

theorem percentDecodeList_append {a da : List Char} (b : List Char)
    (h : percentDecodeList a = some da) :
    percentDecodeList (a ++ b) = (da ++ ·) <$> percentDecodeList b := by
  unfold percentDecodeList at h ⊢
  obtain ⟨ta, hta, hass⟩ := Option.bind_eq_some.mp h
  rw [tokenizeEscapes_append a b ta hta]
  cases h2 : tokenizeEscapes b with
  | none => simp [h2]
  | some tbb =>
    have h3 : ((ta ++ ·) <$> some tbb).bind utf8Assemble = asmAux (ta ++ tbb) none := rfl
    have h4 : (some tbb).bind utf8Assemble = asmAux tbb none := rfl
    rw [h3, h4, asmAux_append ta none tbb da hass]

theorem hexVal_toHexChar (n : Nat) (h : n < 16) : hexVal (toHexChar n) = some n := by
  interval_cases n <;> decide

theorem percentDecodeList_encodeChar {c : Char} (hc : c.toNat < 128) (t : List Char) :
    percentDecodeList (encodeChar c ++ t) = (c :: ·) <$> percentDecodeList t := by
  by_cases hu : isUriUnreserved c = true
  · have he : encodeChar c = [c] := by simp [encodeChar, hu]
    rw [he]
    have hne : ¬ c = '%' := by
      intro hEq
      subst hEq
      exact absurd hu (by decide)
    show percentDecodeList (c :: t) = _
    unfold percentDecodeList
    rw [tokenizeEscapes.eq_def]
    simp only [if_neg hne]
    cases h2 : tokenizeEscapes t with
    | none => simp [h2]
    | some ts =>
      have hstep : (((Sum.inl c :: ·) <$> some ts).bind fun a => utf8Assemble a) =
          utf8Assemble (Sum.inl c :: ts) := rfl
      have h3 : utf8Assemble (Sum.inl c :: ts) = (c :: ·) <$> utf8Assemble ts := rfl
      rw [hstep, h3]
      cases h4 : utf8Assemble ts <;> simp [h4]
  · have he : encodeChar c = ['%', toHexChar (c.toNat / 16), toHexChar (c.toNat % 16)] := by
      simp [encodeChar, hu, utf8Bytes, hc, encodeByte]
    rw [he]
    have hh1 : hexVal (toHexChar (c.toNat / 16)) = some (c.toNat / 16) :=
      hexVal_toHexChar _ (by omega)
    have hh2 : hexVal (toHexChar (c.toNat % 16)) = some (c.toNat % 16) :=
      hexVal_toHexChar _ (by omega)
    have hb : 16 * (c.toNat / 16) + c.toNat % 16 = c.toNat := by omega
    show percentDecodeList ('%' :: toHexChar (c.toNat / 16) :: toHexChar (c.toNat % 16) :: t) = _
    unfold percentDecodeList
    rw [tokenizeEscapes.eq_def]
    simp only [hh1, hh2, if_pos rfl, hb]
    cases h2 : tokenizeEscapes t with
    | none => simp [h2]
    | some ts =>
      simp only [if_true]
      have hstep : (((Sum.inr c.toNat :: ·) <$> some ts).bind fun a => utf8Assemble a) =
          utf8Assemble (Sum.inr c.toNat :: ts) := rfl
      have h3 : utf8Assemble (Sum.inr c.toNat :: ts) =
          (Char.ofNat c.toNat :: ·) <$> utf8Assemble ts := by
        show asmAux (Sum.inr c.toNat :: ts) none = _
        rw [asmAux.eq_def]
        simp only [if_pos hc]
        rfl
      rw [hstep, h3, Char.ofNat_toNat]
      cases h4 : utf8Assemble ts <;> simp [h4]

theorem percentDecodeList_encodeList : ∀ (cs : List Char), (∀ c ∈ cs, c.toNat < 128) →
    ∀ (t : List Char), percentDecodeList ((cs.map encodeChar).flatten ++ t) =
      (cs ++ ·) <$> percentDecodeList t := by
  intro cs
  induction cs with
  | nil =>
    intro _ t
    simp only [List.map_nil, List.flatten_nil, List.nil_append]
    cases h2 : percentDecodeList t <;> simp [h2]
  | cons c rest ih =>
    intro hall t
    have hc : c.toNat < 128 := hall c (by simp)
    have hrest : ∀ x ∈ rest, x.toNat < 128 := fun x hx => hall x (by simp [hx])
    simp only [List.map_cons, List.flatten_cons, List.append_assoc]
    rw [percentDecodeList_encodeChar hc, ih hrest t]
    cases h2 : percentDecodeList t <;> simp [h2]

theorem tokenizeEscapes_snoc_slash (a : List Char) : ∀ (ts : List (Char ⊕ Nat)),
    tokenizeEscapes (a ++ ['/']) = some ts →
    ∃ ts', ts = ts' ++ [Sum.inl '/'] ∧ tokenizeEscapes a = some ts' := by
  induction a using tokenizeEscapes.induct with
  | case1 =>
    intro ts h
    simp only [List.nil_append] at h
    have h2 : tokenizeEscapes ['/'] = some [Sum.inl '/'] := by decide
    rw [h2] at h
    cases h
    exact ⟨[], rfl, rfl⟩
  | case2 c1 c2 rest2 x y hy hx ih =>
    intro ts h
    have hsh : ('%' :: c1 :: c2 :: rest2) ++ ['/'] = '%' :: c1 :: c2 :: (rest2 ++ ['/']) := rfl
    rw [hsh] at h
    simp [tokenizeEscapes, hx, hy] at h
    obtain ⟨tr, htr, rfl⟩ := h
    obtain ⟨tr', rfl, htr'⟩ := ih tr htr
    refine ⟨Sum.inr (16 * x + y) :: tr', rfl, ?_⟩
    simp [tokenizeEscapes, hx, hy, htr']
  | case3 c1 c2 rest2 hfail =>
    intro ts h
    have hsh : ('%' :: c1 :: c2 :: rest2) ++ ['/'] = '%' :: c1 :: c2 :: (rest2 ++ ['/']) := rfl
    rw [hsh] at h
    simp [tokenizeEscapes] at h
  | case4 rest hshape =>
    intro ts h
    rcases rest with _ | ⟨x, _ | ⟨y, r⟩⟩
    · have : tokenizeEscapes (['%'] ++ ['/']) = none := by decide
      rw [this] at h
      cases h
    · have hsh : (['%', x]) ++ ['/'] = '%' :: x :: '/' :: ([] : List Char) := rfl
      rw [hsh] at h
      have hv : hexVal '/' = none := by decide
      simp [tokenizeEscapes, hv] at h
    · exact absurd (hshape x y r rfl) not_false
  | case5 c rest hc ih =>
    intro ts h
    have hsh : (c :: rest) ++ ['/'] = c :: (rest ++ ['/']) := rfl
    rw [hsh, tokenizeEscapes.eq_def] at h
    simp only [if_neg hc] at h
    obtain ⟨tr, htr, rfl⟩ := Option.map_eq_some'.mp h
    obtain ⟨tr', rfl, htr'⟩ := ih tr htr
    refine ⟨Sum.inl c :: tr', rfl, ?_⟩
    rw [tokenizeEscapes.eq_def]
    simp only [if_neg hc, htr']
    rfl

theorem asmAux_snoc_slash (ts : List (Char ⊕ Nat)) : ∀ (st : Option (Nat × Nat × Nat × Nat))
    (ds : List Char), asmAux (ts ++ [Sum.inl '/']) st = some ds →
    ∃ ds', ds = ds' ++ ['/'] := by
  induction ts with
  | nil =>
    intro st ds h
    cases st with
    | none =>
      simp only [List.nil_append] at h
      have h2 : asmAux [Sum.inl '/'] none = some ['/'] := rfl
      rw [h2] at h
      cases h
      exact ⟨[], rfl⟩
    | some s => simp [asmAux] at h
  | cons t rest ih =>
    intro st ds h
    rcases t with c | b
    · cases st with
      | none =>
        have hsh : (Sum.inl c :: rest) ++ [Sum.inl '/'] =
            Sum.inl c :: (rest ++ [Sum.inl '/']) := rfl
        rw [hsh] at h
        obtain ⟨dr, hdr, rfl⟩ := Option.map_eq_some'.mp h
        obtain ⟨ds', rfl⟩ := ih none dr hdr
        exact ⟨c :: ds', rfl⟩
      | some s => simp [asmAux] at h
    · cases st with
      | none =>
        have hsh : (Sum.inr b :: rest) ++ [Sum.inl '/'] =
            Sum.inr b :: (rest ++ [Sum.inl '/']) := rfl
        rw [hsh] at h
        simp only [asmAux] at h
        split_ifs at h <;>
          first
            | (obtain ⟨dr, hdr, rfl⟩ := Option.map_eq_some'.mp h
               obtain ⟨ds', rfl⟩ := ih none dr hdr
               exact ⟨_ :: ds', rfl⟩)
            | (exact ih _ _ h)
      | some s =>
        obtain ⟨cp, need, lo, hi⟩ := s
        have hsh : (Sum.inr b :: rest) ++ [Sum.inl '/'] =
            Sum.inr b :: (rest ++ [Sum.inl '/']) := rfl
        rw [hsh] at h
        simp only [asmAux] at h
        split_ifs at h <;>
          first
            | (obtain ⟨dr, hdr, rfl⟩ := Option.map_eq_some'.mp h
               obtain ⟨ds', rfl⟩ := ih none dr hdr
               exact ⟨_ :: ds', rfl⟩)
            | (exact ih _ _ h)

theorem percentDecode_endsWith_slash {rel d : String} (h : percentDecode rel = some d)
    (he : strEndsWith rel "/" = true) : ∃ y, d = y ++ "/" := by
  unfold strEndsWith at he
  rw [List.isSuffixOf_iff_suffix] at he
  obtain ⟨a, ha⟩ := he
  unfold percentDecode at h
  obtain ⟨dl, hdl, rfl⟩ := Option.map_eq_some'.mp h
  unfold percentDecodeList at hdl
  obtain ⟨ts, hts, hass⟩ := Option.bind_eq_some.mp hdl
  rw [← ha] at hts
  obtain ⟨ts', rfl, -⟩ := tokenizeEscapes_snoc_slash a ts hts
  obtain ⟨ds', rfl⟩ := asmAux_snoc_slash ts' none dl hass
  exact ⟨String.mk ds', String.ext rfl⟩

theorem splitOnSlash_ne_nil (l : List Char) : splitOnSlash l ≠ [] := by
  cases l with
  | nil => simp [splitOnSlash]
  | cons c rest =>
    simp only [splitOnSlash]
    split_ifs
    · simp
    · cases h : splitOnSlash rest <;> simp

theorem splitOnSlash_append (a b : List Char) :
    splitOnSlash (a ++ '/' :: b) = splitOnSlash a ++ splitOnSlash b := by
  induction a with
  | nil => simp [splitOnSlash]
  | cons c rest ih =>
    simp only [List.cons_append, splitOnSlash, List.append_eq]
    split_ifs with hc
    · rw [ih]
      cases hr : splitOnSlash rest <;> simp
    · rw [ih]
      cases hr : splitOnSlash rest with
      | nil => exact absurd hr (splitOnSlash_ne_nil rest)
      | cons s ss => simp

theorem mem_splitOnSlash_no_slash (l : List Char) : ∀ p ∈ splitOnSlash l, '/' ∉ p := by
  induction l with
  | nil =>
    intro p hp
    simp [splitOnSlash] at hp
    subst hp
    simp
  | cons c rest ih =>
    intro p hp
    simp only [splitOnSlash] at hp
    split_ifs at hp with hc
    · rcases List.mem_cons.mp hp with rfl | hp2
      · simp
      · exact ih p hp2
    · cases hr : splitOnSlash rest with
      | nil => exact absurd hr (splitOnSlash_ne_nil rest)
      | cons s ss =>
        rw [hr] at hp
        rcases List.mem_cons.mp hp with rfl | hp2
        · intro hm
          rcases List.mem_cons.mp hm with h1 | h1
          · exact hc h1.symm
          · exact ih s (hr ▸ List.mem_cons_self s ss) h1
        · exact ih p (hr ▸ List.mem_cons_of_mem s hp2)

theorem splitOnSlash_no_slash_id (n : List Char) (hn : '/' ∉ n) (hne : n ≠ []) :
    splitOnSlash n = [n] := by
  induction n with
  | nil => exact absurd rfl hne
  | cons c rest ih =>
    simp only [splitOnSlash]
    have hc : ¬ c = '/' := fun h => hn (h ▸ List.mem_cons_self c rest)
    rw [if_neg hc]
    by_cases hr : rest = []
    · subst hr
      rfl
    · rw [ih (fun hm => hn (List.mem_cons_of_mem c hm)) hr]

theorem segsOf_append_seg (x nm : String) (hne : nm ≠ "") (hns : ∀ c ∈ nm.data, c ≠ '/') :
    segsOf (x ++ "/" ++ nm) = segsOf x ++ [nm] := by
  unfold segsOf
  have hd : (x ++ "/" ++ nm).data = x.data ++ '/' :: nm.data := by
    rw [String.data_append, String.data_append]
    simp
  have hdn : nm.data ≠ [] := by
    intro h
    exact hne (String.ext (by simp [h]))
  rw [hd, splitOnSlash_append,
    splitOnSlash_no_slash_id nm.data (fun hm => hns '/' hm rfl) hdn,
    List.filterMap_append]
  simp [hdn]

theorem segsOf_trailing (x : String) : segsOf (x ++ "/") = segsOf x := by
  unfold segsOf
  have hd : (x ++ "/").data = x.data ++ '/' :: [] := by
    rw [String.data_append]
  rw [hd, splitOnSlash_append, List.filterMap_append]
  simp [splitOnSlash]

theorem normSegs_snoc (l : List String) (nm : String) (h1 : nm ≠ ".") (h2 : nm ≠ "..") :
    normSegs (l ++ [nm]) = normSegs l ++ [nm] := by
  unfold normSegs
  rw [List.foldl_append]
  simp [normStep, h1, h2]

theorem pathResolve_trailing (root x : String) :
    pathResolve root (x ++ "/") = pathResolve root x := by
  unfold pathResolve
  have ha : ("." ++ (x ++ "/")) = ("." ++ x) ++ "/" := by
    apply String.ext
    simp [String.data_append]
  rw [ha, segsOf_trailing]

theorem mem_normSegs_foldl : ∀ (l init : List String) (s : String),
    s ∈ List.foldl normStep init l → s ∈ init ∨ s ∈ l := by
  intro l
  induction l with
  | nil =>
    intro init s h
    exact Or.inl h
  | cons seg rest ih =>
    intro init s h
    rcases ih _ s h with h2 | h2
    · unfold normStep at h2
      split_ifs at h2
      · exact Or.inl h2
      · exact Or.inl (List.dropLast_subset _ h2)
      · rcases List.mem_append.mp h2 with h3 | h3
        · exact Or.inl h3
        · simp at h3
          subst h3
          exact Or.inr (by simp)
    · exact Or.inr (by simp [h2])

theorem mem_segsOf {x s : String} (h : s ∈ segsOf x) :
    s ≠ "" ∧ ∀ c ∈ s.data, c ≠ '/' := by
  unfold segsOf at h
  obtain ⟨p, hp, hf⟩ := List.mem_filterMap.mp h
  by_cases hpe : p = []
  · subst hpe
    simp at hf
  · rw [if_neg hpe] at hf
    cases hf
    constructor
    · intro hc
      apply hpe
      have := congrArg String.data hc
      simpa using this
    · intro c hcm hc
      subst hc
      exact mem_splitOnSlash_no_slash x.data p hp hcm

theorem joinSegs_snoc (l : List String) (nm : String) (h : l ≠ []) :
    joinSegs (l ++ [nm]) = joinSegs l ++ "/" ++ nm := by
  induction l with
  | nil => exact absurd rfl h
  | cons s rest ih =>
    cases rest with
    | nil => rfl
    | cons s2 rest2 =>
      have h2 := ih (by simp)
      have hL : joinSegs ((s :: s2 :: rest2) ++ [nm]) =
          s ++ "/" ++ joinSegs ((s2 :: rest2) ++ [nm]) := rfl
      have hR : joinSegs (s :: s2 :: rest2) = s ++ "/" ++ joinSegs (s2 :: rest2) := rfl
      rw [hL, h2, hR]
      apply String.ext
      simp [String.data_append]

theorem strEndsWith_slash_iff {s : String} :
    strEndsWith s "/" = true ↔ s.data.getLast? = some '/' := by
  unfold strEndsWith
  rw [List.isSuffixOf_iff_suffix]
  constructor
  · rintro ⟨t, ht⟩
    rw [← ht]
    exact List.getLast?_concat t
  · intro h
    obtain ⟨ys, hys⟩ := List.getLast?_eq_some_iff.mp h
    exact ⟨ys, hys.symm⟩

theorem joinSegs_getLast (l : List String) (hne : l ≠ [])
    (hall : ∀ s ∈ l, s ≠ "" ∧ ∀ c ∈ s.data, c ≠ '/') :
    ∃ c, (joinSegs l).data.getLast? = some c ∧ c ≠ '/' := by
  induction l with
  | nil => exact absurd rfl hne
  | cons s rest ih =>
    cases rest with
    | nil =>
      have hs := hall s (by simp)
      have hne2 : s.data ≠ [] := by
        intro hc
        exact hs.1 (String.ext (by simp [hc]))
      refine ⟨s.data.getLast hne2, ?_, hs.2 _ (List.getLast_mem hne2)⟩
      show s.data.getLast? = _
      rw [List.getLast?_eq_getLast s.data hne2]
    | cons s2 r2 =>
      obtain ⟨c, hc, hslash⟩ := ih (by simp) (fun x hx => hall x (by simp [hx]))
      refine ⟨c, ?_, hslash⟩
      have hj : joinSegs (s :: s2 :: r2) = s ++ "/" ++ joinSegs (s2 :: r2) := rfl
      rw [hj, String.data_append, List.getLast?_append, hc]
      rfl

theorem joinSegs_abs_not_slash (l : List String) (hne : l ≠ [])
    (hall : ∀ s ∈ l, s ≠ "" ∧ ∀ c ∈ s.data, c ≠ '/') :
    strEndsWith ("/" ++ joinSegs l) "/" = false := by
  obtain ⟨c, hc, hslash⟩ := joinSegs_getLast l hne hall
  have hlast : ("/" ++ joinSegs l).data.getLast? = some c := by
    rw [String.data_append, List.getLast?_append, hc]
    rfl
  cases he : strEndsWith ("/" ++ joinSegs l) "/"
  · rfl
  · exfalso
    have := strEndsWith_slash_iff.mp he
    rw [hlast] at this
    exact hslash (Option.some.inj this)

theorem pathResolve_snoc {root d nm : String} (h1 : nm ≠ "")
    (h2 : ∀ c ∈ nm.data, c ≠ '/') (h3 : nm ≠ ".") (h4 : nm ≠ "..") :
    pathResolve root (d ++ "/" ++ nm) = pathJoin (pathResolve root d) nm := by
  unfold pathResolve
  have ha : "." ++ (d ++ "/" ++ nm) = ("." ++ d) ++ "/" ++ nm := by
    apply String.ext
    simp [String.data_append]
  rw [ha, segsOf_append_seg ("." ++ d) nm h1 h2, ← List.append_assoc,
    normSegs_snoc _ nm h3 h4]
  by_cases hN : normSegs (segsOf root ++ segsOf ("." ++ d)) = []
  · rw [hN]
    rfl
  · rw [joinSegs_snoc _ nm hN]
    have hall : ∀ s ∈ normSegs (segsOf root ++ segsOf ("." ++ d)),
        s ≠ "" ∧ ∀ c ∈ s.data, c ≠ '/' := by
      intro s hs
      rcases mem_normSegs_foldl _ [] s hs with h | h
      · simp at h
      · rcases List.mem_append.mp h with h | h
        · exact mem_segsOf h
        · exact mem_segsOf h
    have hend := joinSegs_abs_not_slash _ hN hall
    unfold pathJoin
    rw [if_neg (show ¬ strEndsWith
        ("/" ++ joinSegs (normSegs (segsOf root ++ segsOf ("." ++ d)))) "/" = true by
      rw [hend]; exact Bool.false_ne_true)]
    apply String.ext
    simp [String.data_append]

theorem strStartsWith_append_left (a b p : String) (h : strStartsWith a p = true) :
    strStartsWith (a ++ b) p = true := by
  rw [strStartsWith_iff] at h ⊢
  rw [String.data_append]
  exact h.trans (List.prefix_append a.data b.data)

theorem strStartsWith_self_append (a b : String) : strStartsWith (a ++ b) a = true := by
  rw [strStartsWith_iff, String.data_append]
  exact List.prefix_append _ _

theorem strStartsWith_pathJoin (a nm p : String) (h : strStartsWith a p = true) :
    strStartsWith (pathJoin a nm) p = true := by
  unfold pathJoin
  split_ifs
  · exact strStartsWith_append_left a nm p h
  · exact strStartsWith_append_left (a ++ "/") nm p (strStartsWith_append_left a "/" p h)

theorem strStartsWith_pathJoin_rootNorm (root nm : String) :
    strStartsWith (pathJoin root nm)
      (if strEndsWith root "/" then root else root ++ "/") = true := by
  unfold pathJoin
  split_ifs with h
  · exact strStartsWith_self_append root nm
  · exact strStartsWith_self_append (root ++ "/") nm

theorem percentDecode_some_data {s d : String} (h : percentDecode s = some d) :
    percentDecodeList s.data = some d.data := by
  unfold percentDecode at h
  obtain ⟨dl, hdl, rfl⟩ := Option.map_eq_some'.mp h
  rw [hdl]

/-- Claim C10: every listing row's `href` is the trailing-slash-guaranteed
current request path plus the percent-encoded entry name, plus a trailing
slash for a directory (first conjunct, the child-row loop builds exactly
`rowHref`); and hrefs round-trip (second conjunct): for any current relative
path that resolves safely to `abs` and any ASCII entry name containing no
separator and not `.` or `..` — e.g. one with reserved URL characters such as
`"a b&c"` — percent-decoding the produced href and resolving it again through
`resolvePathSafe` yields exactly the same physical child `path.join(abs,
name)`. -/
theorem row_href_round_trip :
    (∀ (s : Stat) (abs reqPath : String) (mode : Option String) (e : Dirent),
      (childRows (fsOkStat s) abs reqPath mode [e]).fst =
        [{ name := e.name ++ (if e.dirFlag then "/" else "")
           href := rowHref reqPath e.name e.dirFlag
           isDir := e.dirFlag
           size := if e.dirFlag then none else some s.size
           mtime := s.mtime
           mode := if e.dirFlag then none else mode }]) ∧
    ∀ (root rel abs nm : String) (isDir : Bool),
      strStartsWith rel "/" = true →
      resolvePathSafe root rel = some abs →
      nm ≠ "" → nm ≠ "." → nm ≠ ".." →
      (∀ c ∈ nm.data, c.toNat < 128) →
      (∀ c ∈ nm.data, c ≠ '/') →
      resolvePathSafe root (rowHref rel nm isDir) = some (pathJoin abs nm) := by
  refine ⟨fun s abs reqPath mode e => rfl, ?_⟩
  intro root rel abs nm isDir hrel hres hne hdot hdotdot hascii hnoslash
  have hrelne : rel ≠ "" := strStartsWith_slash_ne_empty hrel
  unfold resolvePathSafe at hres
  simp only [if_neg hrelne] at hres
  cases hd : percentDecode rel with
  | none =>
    simp only [hd] at hres
    exact Option.noConfusion hres
  | some d =>
    simp only [hd] at hres
    by_cases hcond : ¬ strStartsWith (pathResolve root d)
        (if strEndsWith root "/" then root else root ++ "/") = true ∧
        pathResolve root d ≠ root
    · rw [if_pos hcond] at hres
      exact Option.noConfusion hres
    · rw [if_neg hcond] at hres
      have habs : abs = pathResolve root d := (Option.some.inj hres).symm
      obtain ⟨y, hbdec, hyres⟩ :
          ∃ y, percentDecode (if strEndsWith rel "/" then rel else rel ++ "/") =
              some (y ++ "/") ∧ pathResolve root y = pathResolve root d := by
        by_cases hbe : strEndsWith rel "/" = true
        · obtain ⟨y, hy⟩ := percentDecode_endsWith_slash hd hbe
          refine ⟨y, ?_, ?_⟩
          · rw [if_pos hbe, hd, hy]
          · rw [hy, pathResolve_trailing]
        · refine ⟨d, ?_, rfl⟩
          rw [if_neg hbe]
          have h1 : percentDecodeList rel.data = some d.data := percentDecode_some_data hd
          have h2 : percentDecodeList (rel.data ++ ['/']) = some (d.data ++ ['/']) := by
            rw [percentDecodeList_append ['/'] h1]
            rfl
          unfold percentDecode
          rw [show (rel ++ "/").data = rel.data ++ ['/'] from by rw [String.data_append]]
          rw [h2]
          rfl
      have hbl : percentDecodeList
          (if strEndsWith rel "/" then rel else rel ++ "/").data = some (y ++ "/").data :=
        percentDecode_some_data hbdec
      have hdata : (rowHref rel nm isDir).data =
          (if strEndsWith rel "/" then rel else rel ++ "/").data ++
            ((nm.data.map encodeChar).flatten ++ (if isDir then ['/'] else [])) := by
        unfold rowHref
        rw [String.data_append, String.data_append, List.append_assoc]
        congr 2
        cases isDir <;> rfl
      have hdecl : percentDecodeList (rowHref rel nm isDir).data =
          some ((y ++ "/").data ++ (nm.data ++ (if isDir then ['/'] else []))) := by
        rw [hdata, percentDecodeList_append _ hbl, percentDecodeList_encodeList nm.data hascii]
        cases isDir <;> rfl
      have hdec : percentDecode (rowHref rel nm isDir) =
          some (String.mk ((y ++ "/").data ++ (nm.data ++ (if isDir then ['/'] else [])))) := by
        unfold percentDecode
        rw [hdecl]
        rfl
      have hdecstr : String.mk ((y ++ "/").data ++ (nm.data ++ (if isDir then ['/'] else [])))
          = if isDir then (y ++ "/" ++ nm) ++ "/" else y ++ "/" ++ nm := by
        cases isDir <;> (apply String.ext; simp [String.data_append])
      have hresolve : pathResolve root
          (String.mk ((y ++ "/").data ++ (nm.data ++ (if isDir then ['/'] else [])))) =
          pathJoin abs nm := by
        rw [hdecstr, habs, ← hyres]
        cases isDir
        · simp only [if_neg Bool.false_ne_true]
          exact pathResolve_snoc hne hnoslash hdot hdotdot
        · rw [if_pos rfl, pathResolve_trailing]
          exact pathResolve_snoc hne hnoslash hdot hdotdot
      have hhne : rowHref rel nm isDir ≠ "" := by
        intro hc
        have hcd := congrArg String.data hc
        rw [hdata] at hcd
        simp only [List.append_eq_nil] at hcd
        obtain ⟨hb, -⟩ := hcd
        by_cases hbe : strEndsWith rel "/" = true
        · rw [if_pos hbe] at hb
          exact hrelne (String.ext (by simp [hb]))
        · rw [if_neg hbe] at hb
          rw [String.data_append] at hb
          simp at hb
      have hpref : strStartsWith (pathJoin abs nm)
          (if strEndsWith root "/" then root else root ++ "/") = true := by
        by_cases hA : strStartsWith (pathResolve root d)
            (if strEndsWith root "/" then root else root ++ "/") = true
        · rw [habs]
          exact strStartsWith_pathJoin _ nm _ hA
        · have hroot : pathResolve root d = root := by
            by_contra hB
            exact hcond ⟨hA, hB⟩
          rw [habs, hroot]
          exact strStartsWith_pathJoin_rootNorm root nm
      unfold resolvePathSafe
      simp only [if_neg hhne, hdec, hresolve]
      rw [if_neg (by intro hx; exact absurd hpref hx.1)]


/-- Witness for C10 at the concrete name `"a b&c"` under `/docs/sub`. -/
theorem row_href_round_trip_witness :
    (childRows (fsOkStat (statFile 9 9)) (docsDir ++ "/sub") "/docs/sub" none
        [direntFile "a b&c"]).fst =
      [⟨"a b&c", "/docs/sub/a%20b%26c", false, some 9, 9, none⟩] ∧
    resolvePathSafe docsDir "/sub" = some (docsDir ++ "/sub") ∧
    resolvePathSafe docsDir (rowHref "/sub" "a b&c" false) =
      some (pathJoin (docsDir ++ "/sub") "a b&c") :=
  ⟨(row_href_round_trip.1 (statFile 9 9) (docsDir ++ "/sub") "/docs/sub" none
      (direntFile "a b&c")).trans (by decide),
   by decide,
   row_href_round_trip.2 docsDir "/sub" (docsDir ++ "/sub") "a b&c" false
     (by decide) (by decide) (by decide) (by decide) (by decide) (by decide) (by decide)⟩
